import Mathlib

/-!
# Verification of `lzhasyncemailsender` (AsyncEmailSender)

Shallow embedding of `src/lzhasyncemailsender/aes.py`.

The Python module is a queued asynchronous email dispatcher:
* `send` (the enqueue operation) expands its recipient argument (a single
  address or a list) into one queue record per address and `put`s each onto
  an unbounded `asyncio.Queue`;
* a single worker task (`_process_queue`) pulls records in FIFO order and, for
  each one, runs `_send_email` in a retry loop `retry = 3;
  while retry > 0 and not await self._send_email(..): retry -= 1`;
* `_connect` maintains a single optional SMTP client handle: probe an existing
  handle with `noop`, otherwise (or on probe failure) open a fresh connection
  (`connect` then `login`), discarding the handle on any failure;
* `_send_email` acquires the connection then calls `send_message`, discarding
  the handle and returning `False` on transmission failure;
* `stop` sets `self._running = False` and, if a client handle is present,
  awaits `client.quit()` with no surrounding `try`/`except`.

Network outcomes (noop / connect / login / send_message / quit) are modelled
by boolean oracles indexed by per-operation call counters, so every run of the
model is deterministic and executable.
-/

set_option autoImplicit false

namespace AsyncEmailSender

/-- A queued email record, as built by `send`:
`{'to': _to, 'subject': subject, 'body': body}`. -/
structure SendRequest where
  «to» : String
  subject : String
  body : String
deriving DecidableEq, Repr

/-- The `to` argument of `send`: `to:str|list[str]`. -/
inductive Recipients where
  | single (a : String)
  | multiple (as : List String)
deriving DecidableEq, Repr

/-- The `_tos` normalisation in `send`: `if isinstance(to, list): _tos = to
else: _tos.append(to)`. -/
def expandTos : Recipients → List String
  | .single a => [a]
  | .multiple as => as

/-- Outcomes of the external network operations, indexed by how many calls of
that kind have been made so far. -/
structure NetOracle where
  noopOk : Nat → Bool
  connectOk : Nat → Bool
  loginOk : Nat → Bool
  sendOk : Nat → Bool

/-- Connection-related state of the dispatcher: the optional client handle
(`self._client`), tagged with the index of the connection-open that produced
it, plus instrumentation counters for each kind of network call. -/
structure ConnState where
  client : Option Nat
  noops : Nat
  opens : Nat
  logins : Nat
  sends : Nat
deriving DecidableEq, Repr

/-- Connection state at construction time: `self._client = None`. -/
def initConn : ConnState :=
  { client := none, noops := 0, opens := 0, logins := 0, sends := 0 }

/-- The fresh-connection block of `_connect`:
`self._client = aiosmtplib.SMTP(...); await self._client.connect();
await self._client.login(...)`, with `except: self._client = None;
return False`. The handle is tagged with the current open index. -/
def freshConnect (o : NetOracle) (s : ConnState) : Bool × ConnState :=
  let s1 : ConnState := { s with client := some s.opens, opens := s.opens + 1 }
  if o.connectOk s.opens then
    let s2 : ConnState := { s1 with logins := s1.logins + 1 }
    if o.loginOk s1.logins then (true, s2)
    else (false, { s2 with client := none })
  else (false, { s1 with client := none })

/-- `AsyncEmailSender._connect`: if a client handle exists, probe it with
`noop` and reuse it on success; on probe failure discard it; with no (live)
handle, open a fresh connection. -/
def connectStep (o : NetOracle) (s : ConnState) : Bool × ConnState :=
  match s.client with
  | some _ =>
    if o.noopOk s.noops then
      (true, { s with noops := s.noops + 1 })
    else
      freshConnect o { s with noops := s.noops + 1, client := none }
  | none => freshConnect o s

/-- `AsyncEmailSender._send_email`: acquire the connection, then
`send_message`; on transmission failure set `self._client = None` and return
`False`. -/
def sendEmailStep (o : NetOracle) (s : ConnState) : Bool × ConnState :=
  let r := connectStep o s
  if r.1 then
    let s2 : ConnState := { r.2 with sends := r.2.sends + 1 }
    if o.sendOk r.2.sends then (true, s2)
    else (false, { s2 with client := none })
  else (false, r.2)

/-- The per-item retry loop of `_process_queue`:
`retry = 3; while retry > 0 and not await self._send_email(..): retry -= 1`.
`retryLoop o r s` runs the loop from remaining-retry counter `r`; it returns
the final connection state and the number of `_send_email` calls made. -/
def retryLoop (o : NetOracle) : Nat → ConnState → ConnState × Nat
  | 0, s => (s, 0)
  | r + 1, s =>
    let a := sendEmailStep o s
    if a.1 then (a.2, 1)
    else
      let rest := retryLoop o r a.2
      (rest.1, rest.2 + 1)

/-- Processing of one dequeued item by `_process_queue` (`retry = 3` at
loop entry). Returns the final connection state and the number of
`_send_email` attempts made for the item. -/
def processItem (o : NetOracle) (s : ConnState) : ConnState × Nat :=
  retryLoop o 3 s

/-- An oracle under which every network operation succeeds. -/
def allOk : NetOracle :=
  { noopOk := fun _ => true, connectOk := fun _ => true
    loginOk := fun _ => true, sendOk := fun _ => true }

/-- An oracle under which connections succeed but every `send_message` call
fails: a send attempt deterministically fails every time. -/
def sendAlwaysFails : NetOracle :=
  { noopOk := fun _ => true, connectOk := fun _ => true
    loginOk := fun _ => true, sendOk := fun _ => false }

/-! ## The whole dispatcher as a small-step system

`_process_queue` runs as a single background task; `send` and `stop` are
called by the user. We model the dispatcher state together with the worker's
control point, and record observable worker events in a trace. Queue entries
are tagged with a sequence number (`0, 1, 2, ...` in enqueue order) so that
ordering properties can be stated. -/

/-- Observable worker events. `attemptStart i` marks the start of one
`_send_email` call for the item with sequence number `i`; `done i` marks
`task_done` after a successful send; `dropped i` marks `task_done` after the
retry loop gave the item up. -/
inductive Event where
  | attemptStart (i : Nat)
  | done (i : Nat)
  | dropped (i : Nat)
deriving DecidableEq, Repr

/-- The sequence number an event refers to. -/
def Event.seq : Event → Nat
  | .attemptStart i => i
  | .done i => i
  | .dropped i => i

/-- The worker's control point inside `_process_queue`:
at the `while self._running` test, suspended in `await self._queue.get()`,
inside the retry loop for one item (with the current `retry` counter), or
exited (the `while` loop ended). -/
inductive WorkerPhase where
  | loopTop
  | waitingGet
  | processing (i : Nat) (item : SendRequest) (retry : Nat)
  | exited
deriving DecidableEq, Repr

/-- Full dispatcher state: the `self._running` flag, the queue (each entry
tagged with its enqueue sequence number), the next sequence number, the
connection state, the worker's control point, and the event trace. -/
structure SysState where
  running : Bool
  queue : List (Nat × SendRequest)
  nextSeq : Nat
  conn : ConnState
  phase : WorkerPhase
  trace : List Event
deriving DecidableEq, Repr

/-- State after `__init__`: running, empty queue, no client, worker task
started at the top of its loop, nothing observed yet. -/
def initState : SysState :=
  { running := true, queue := [], nextSeq := 0, conn := initConn
    phase := .loopTop, trace := [] }

/-- Tag a list of requests with consecutive sequence numbers starting at
`n`. -/
def tagFrom (n : Nat) : List SendRequest → List (Nat × SendRequest)
  | [] => []
  | r :: rs => (n, r) :: tagFrom (n + 1) rs

/-- The records `send` builds for a call: one per expanded recipient, all with
the call's subject and body. -/
def requestsOf (recips : Recipients) (subject body : String) : List SendRequest :=
  (expandTos recips).map (fun a => { «to» := a, subject := subject, body := body })

/-- `AsyncEmailSender.send` as a state transformer: appends one tagged record
per expanded recipient to the queue, in list order. Nothing else of the state
is touched. -/
def enqueueOp (s : SysState) (recips : Recipients) (subject body : String) :
    SysState :=
  let reqs := requestsOf recips subject body
  { s with queue := s.queue ++ tagFrom s.nextSeq reqs
           nextSeq := s.nextSeq + reqs.length }

/-- The state effect of `AsyncEmailSender.stop`: `self._running = False`.
(The `quit` call does not modify any dispatcher field; whether it raises is
modelled separately by `stopResult`.) -/
def stopOp (s : SysState) : SysState :=
  { s with running := false }

/-- `AsyncEmailSender.stop` as seen by its caller: sets the running flag,
then, if a client handle is present, awaits `client.quit()` — with no
`try`/`except`, so a failing `quit` propagates as an exception. Returns the
number of `quit` calls made, or the exception. `quitOk` is the outcome of the
(single possible) `quit` call. -/
def stopResult (quitOk : Bool) (client : Option Nat) : Except String Nat :=
  match client with
  | none => .ok 0
  | some _ => if quitOk then .ok 1 else .error "quit raised"

/-- One scheduling step of the worker task. From `loopTop` it tests
`self._running`; from `waitingGet` it returns from `queue.get()` if an item is
available (otherwise it stays suspended); from `processing` it evaluates the
`while retry > 0 and not await self._send_email(..)` condition: at
`retry = 0` the loop short-circuits and the item is finished (`task_done`),
otherwise one `_send_email` attempt runs. An exited worker never moves. -/
def workerStep (o : NetOracle) (s : SysState) : SysState :=
  match s.phase with
  | .exited => s
  | .loopTop =>
    if s.running then { s with phase := .waitingGet }
    else { s with phase := .exited }
  | .waitingGet =>
    match s.queue with
    | [] => s
    | (i, item) :: rest => { s with queue := rest, phase := .processing i item 3 }
  | .processing i item r =>
    if r = 0 then
      { s with phase := .loopTop, trace := s.trace ++ [.dropped i] }
    else
      let a := sendEmailStep o s.conn
      if a.1 then
        { s with conn := a.2, phase := .loopTop
                 trace := s.trace ++ [.attemptStart i, .done i] }
      else
        { s with conn := a.2, phase := .processing i item (r - 1)
                 trace := s.trace ++ [.attemptStart i] }

/-- An external stimulus to the dispatcher: an `enqueue` call, a `stop` call,
or one scheduling step of the worker task. -/
inductive Op where
  | enqueue (recips : Recipients) (subject body : String)
  | stop
  | work
deriving Repr

/-- Apply one stimulus. -/
def applyOp (o : NetOracle) (s : SysState) : Op → SysState
  | .enqueue recips subject body => enqueueOp s recips subject body
  | .stop => stopOp s
  | .work => workerStep o s

/-- Run a list of stimuli from the initial state: an arbitrary interleaving of
`enqueue` calls, `stop` calls and worker steps. -/
def run (o : NetOracle) (ops : List Op) : SysState :=
  ops.foldl (applyOp o) initState

/-! ## The queue primitive used by `send` -/

/-- `asyncio.Queue.put` on a queue with capacity bound `maxsize`: appends the
item if the queue is unbounded (`maxsize = 0`) or not full, and otherwise
would suspend the caller (modelled as `none`). -/
def queuePut {α : Type} (maxsize : Nat) (q : List α) (x : α) : Option (List α) :=
  if maxsize = 0 ∨ q.length < maxsize then some (q ++ [x]) else none

/-- The capacity bound of the dispatcher's queue: `asyncio.Queue()` is
constructed with no `maxsize` argument, i.e. `maxsize = 0`, unbounded. -/
def aesQueueMaxsize : Nat := 0

/-- `AsyncEmailSender.send` at the level of the raw queue contents, with each
`await self._queue.put(..)` modelled by `queuePut`: `none` would mean some
`put` suspended the caller waiting for space. -/
def sendMethod (q : List SendRequest) (recips : Recipients)
    (subject body : String) : Option (List SendRequest) :=
  (expandTos recips).foldlM
    (fun acc a => queuePut aesQueueMaxsize acc
      { «to» := a, subject := subject, body := body })
    q

/-! ## Basic lemmas about the embedding -/

theorem tagFrom_map_snd (n : Nat) (l : List SendRequest) :
    (tagFrom n l).map Prod.snd = l := by
  induction l generalizing n with
  | nil => rfl
  | cons r rs ih => simp [tagFrom, ih]

theorem tagFrom_length (n : Nat) (l : List SendRequest) :
    (tagFrom n l).length = l.length := by
  induction l generalizing n with
  | nil => rfl
  | cons r rs ih => simp [tagFrom, ih]

theorem mem_tagFrom_fst {n j : Nat} {l : List SendRequest}
    (h : j ∈ (tagFrom n l).map Prod.fst) : n ≤ j ∧ j < n + l.length := by
  induction l generalizing n with
  | nil => simp [tagFrom] at h
  | cons r rs ih =>
    simp only [tagFrom, List.map_cons, List.mem_cons] at h
    rcases h with h | h
    · subst h; simp
    · have := ih (n := n + 1) h
      constructor <;> [omega; (simp [List.length_cons]; omega)]

theorem tagFrom_fst_pairwise (n : Nat) (l : List SendRequest) :
    ((tagFrom n l).map Prod.fst).Pairwise (· < ·) := by
  induction l generalizing n with
  | nil => simp [tagFrom]
  | cons r rs ih =>
    simp only [tagFrom, List.map_cons, List.pairwise_cons]
    exact ⟨fun j hj => (mem_tagFrom_fst hj).1, ih (n + 1)⟩

theorem queuePut_unbounded {α : Type} (q : List α) (x : α) :
    queuePut 0 q x = some (q ++ [x]) := by
  simp [queuePut]

theorem sendMethod_aux (subject body : String) :
    ∀ (l : List String) (q : List SendRequest),
      List.foldlM
        (fun acc a => queuePut aesQueueMaxsize acc
          { «to» := a, subject := subject, body := body }) q l
      = some (q ++ l.map fun a => { «to» := a, subject := subject, body := body })
  | [], q => by simp
  | a :: l, q => by
    rw [List.foldlM_cons]
    simp only [aesQueueMaxsize] at *
    rw [queuePut_unbounded q { «to» := a, subject := subject, body := body }]
    show List.foldlM
        (fun acc a2 => queuePut 0 acc
          { «to» := a2, subject := subject, body := body })
        (q ++ [{ «to» := a, subject := subject, body := body }]) l = _
    have ih := sendMethod_aux subject body l
      (q ++ [{ «to» := a, subject := subject, body := body }])
    simp only [aesQueueMaxsize] at ih
    rw [ih]
    simp

/-! ## Claim theorems (C1, C2, C3, C4, C7, C10) -/

/-- The script for the retry-bound scenario: enqueue one request, then let the
worker run under an oracle whose send attempts deterministically fail. -/
def alwaysFailScript : List Op :=
  [.enqueue (.single "a@x.com") "S" "B"] ++ List.replicate 8 .work

/-- C1: evaluation of the code at the failing input. For a request whose send
attempt deterministically fails every time, the worker performs exactly 3
`_send_email` attempts — not 4 — and then drops the request with no further
attempts: the loop `retry = 3; while retry > 0 and not await
self._send_email(..)` short-circuits at `retry = 0` before a fourth call,
even though the last log line announces a third retry (`Retrying ... (3/3)`)
that never runs. -/
theorem claim1_retry_count_is_three :
    (processItem sendAlwaysFails initConn).2 = 3 ∧
    (processItem sendAlwaysFails initConn).2 ≠ 4 ∧
    (∀ m : Nat,
      ((workerStep sendAlwaysFails)^[m] (run sendAlwaysFails alwaysFailScript)).trace
        = [.attemptStart 0, .attemptStart 0, .attemptStart 0, .dropped 0]) := by
  refine ⟨rfl, by decide, fun m => ?_⟩
  have hfix : workerStep sendAlwaysFails (run sendAlwaysFails alwaysFailScript)
      = run sendAlwaysFails alwaysFailScript := rfl
  rw [Function.iterate_fixed hfix]
  decide

/-- C2 counterexample: `stop()` can raise. With a connection handle present
and a failing `quit`, the un-guarded `await self._client.quit()` propagates
the failure to `stop()`'s caller instead of swallowing it. -/
theorem claim2_counterexample_stop_raises :
    stopResult false (some 0) = .error "quit raised" := rfl

/-- C2 (amended): `stop()` always clears the running flag; it invokes `quit`
exactly once when a connection handle is present and zero times otherwise;
but a failure during that final logout is NOT swallowed — it propagates to
`stop()`'s caller (there is no `try`/`except` around `quit`). -/
theorem claim2_amended_stop_behavior (quitOk : Bool) (c : Nat) (s : SysState) :
    stopResult quitOk none = .ok 0 ∧
    stopResult true (some c) = .ok 1 ∧
    stopResult false (some c) = .error "quit raised" ∧
    (stopOp s).running = false :=
  ⟨rfl, rfl, rfl, rfl⟩

/-- A run in which `stop()` completes (with no open connection, so zero
`quit` calls) while the worker is suspended in `queue.get()`, and a request
is enqueued afterwards. -/
def postStopScript : List Op :=
  [.work, .stop, .enqueue (.single "x@y.z") "S" "B", .work, .work]

/-- C3 counterexample: a request enqueued after `stop()` has completed can
still be processed. In `postStopScript` the worker is already suspended in
`await self._queue.get()` when `stop()` runs (and completes: no client is
open, so `quit` is called zero times); the request enqueued afterwards (the
one with sequence number 0) wakes the pending `get` and a send attempt occurs
for it, because `self._running` is only tested at the top of the worker
loop. -/
theorem claim3_counterexample_post_stop_processed :
    (run allOk postStopScript).trace = [.attemptStart 0, .done 0] ∧
    Event.attemptStart 0 ∈ (run allOk postStopScript).trace ∧
    (run allOk [.work]).conn.client = none ∧
    stopResult true none = .ok 0 := by
  refine ⟨rfl, ?_, rfl, rfl⟩
  decide

/-- C3 (amended): after `stop()`, a subsequently enqueued request is accepted
into the queue; once the worker has observed the cleared running flag and
exited its loop, no subsequently enqueued request is ever processed — no
worker step changes the trace, and the request stays in the queue. (If the
worker was still suspended in `queue.get()` when `stop()` completed, the next
enqueued request is still processed, as the counterexample shows.) -/
theorem claim3_amended_no_processing_after_exit (o : NetOracle) (s : SysState)
    (h : s.phase = .exited) (recips : Recipients) (subject body : String)
    (n : Nat) :
    ((workerStep o)^[n] (enqueueOp s recips subject body)).trace = s.trace ∧
    ((workerStep o)^[n] (enqueueOp s recips subject body)).queue
      = s.queue ++ tagFrom s.nextSeq (requestsOf recips subject body) := by
  have hphase : (enqueueOp s recips subject body).phase = .exited := h
  have hfix : workerStep o (enqueueOp s recips subject body)
      = enqueueOp s recips subject body := by
    simp [workerStep, hphase]
  rw [Function.iterate_fixed hfix]
  exact ⟨rfl, rfl⟩

/-- A state in which the worker has exited: `stop()` ran, then the worker
observed `self._running == False` at the top of its loop. -/
def exitedState : SysState := run allOk [.stop, .work]

/-- Witness for the amended C3 at a concrete exited state. -/
theorem claim3_amended_witness :
    ((workerStep allOk)^[5] (enqueueOp exitedState (.single "a@x.com") "S" "B")).trace
      = exitedState.trace ∧
    ((workerStep allOk)^[5] (enqueueOp exitedState (.single "a@x.com") "S" "B")).queue
      = exitedState.queue
        ++ tagFrom exitedState.nextSeq (requestsOf (.single "a@x.com") "S" "B") :=
  claim3_amended_no_processing_after_exit allOk exitedState rfl
    (.single "a@x.com") "S" "B" 5

/-- C4: a single-address `enqueue` call appends exactly one record with that
address; a list-valued call with N addresses appends exactly N records, one
per address, in input order, with no deduplication; every record carries the
call's subject and body. -/
theorem claim4_enqueue_expansion (s : SysState) (a : String) (as : List String)
    (subject body : String) :
    (enqueueOp s (.single a) subject body).queue.map Prod.snd
      = s.queue.map Prod.snd ++ [{ «to» := a, subject := subject, body := body }] ∧
    (enqueueOp s (.multiple as) subject body).queue.map Prod.snd
      = s.queue.map Prod.snd
        ++ as.map (fun x => { «to» := x, subject := subject, body := body }) := by
  constructor <;>
    simp [enqueueOp, requestsOf, expandTos, tagFrom, tagFrom_map_snd]

/-- C7: fire-and-forget enqueue. Every `send` call returns normally
(`some`), never suspends on queue capacity (the queue is unbounded:
`asyncio.Queue()` has `maxsize = 0`), and leaves all the call's records in
the queue; it never touches the connection state, the running flag or the
worker, so no connection, authentication, transmission or retry-exhaustion
outcome can reach the caller. -/
theorem claim7_fire_and_forget (q : List SendRequest) (st : SysState)
    (recips : Recipients) (subject body : String) :
    sendMethod q recips subject body = some (q ++ requestsOf recips subject body) ∧
    aesQueueMaxsize = 0 ∧
    (enqueueOp st recips subject body).conn = st.conn ∧
    (enqueueOp st recips subject body).running = st.running ∧
    (enqueueOp st recips subject body).phase = st.phase := by
  refine ⟨?_, rfl, rfl, rfl, rfl⟩
  unfold sendMethod requestsOf
  exact sendMethod_aux subject body (expandTos recips) q

/-- C10: an `enqueue` call with an empty recipient list creates zero records
— the dispatcher state is unchanged — and returns normally without error. -/
theorem claim10_empty_recipient_list (st : SysState) (q : List SendRequest)
    (subject body : String) :
    enqueueOp st (.multiple []) subject body = st ∧
    sendMethod q (.multiple []) subject body = some q := by
  constructor
  · cases st
    simp [enqueueOp, requestsOf, expandTos, tagFrom]
  · rfl

/-! ## Connection lifecycle lemmas (for C5, C6, C8) -/

theorem freshConnect_opens (o : NetOracle) (s : ConnState) :
    (freshConnect o s).2.opens = s.opens + 1 := by
  unfold freshConnect
  cases hc : o.connectOk s.opens <;> cases hl : o.loginOk s.logins <;>
    simp [hc, hl]

theorem freshConnect_noops (o : NetOracle) (s : ConnState) :
    (freshConnect o s).2.noops = s.noops := by
  unfold freshConnect
  cases hc : o.connectOk s.opens <;> cases hl : o.loginOk s.logins <;>
    simp [hc, hl]

theorem freshConnect_client (o : NetOracle) (s : ConnState) :
    (freshConnect o s).2.client = none ∨
      (freshConnect o s).2.client = some s.opens := by
  unfold freshConnect
  cases hc : o.connectOk s.opens <;> cases hl : o.loginOk s.logins <;>
    simp [hc, hl]

theorem freshConnect_fail_client (o : NetOracle) (s : ConnState)
    (h : (freshConnect o s).1 = false) : (freshConnect o s).2.client = none := by
  unfold freshConnect at h ⊢
  cases hc : o.connectOk s.opens <;> cases hl : o.loginOk s.logins <;>
    simp [hc, hl] at h ⊢

/-- At most one live connection, and every live handle was produced by one of
the connection-opens counted so far. -/
def WFConn (s : ConnState) : Prop :=
  ∀ c, s.client = some c → c < s.opens

theorem freshConnect_WF (o : NetOracle) (s : ConnState) :
    WFConn (freshConnect o s).2 := by
  intro c hc
  rw [freshConnect_opens]
  rcases freshConnect_client o s with h | h <;> rw [h] at hc
  · exact absurd hc (by simp)
  · cases hc
    omega

theorem connectStep_none (o : NetOracle) (s : ConnState)
    (hc : s.client = none) : connectStep o s = freshConnect o s := by
  unfold connectStep
  rw [hc]

theorem connectStep_probe_ok (o : NetOracle) (s : ConnState) (c : Nat)
    (hc : s.client = some c) (hp : o.noopOk s.noops = true) :
    connectStep o s = (true, { s with noops := s.noops + 1 }) := by
  unfold connectStep
  rw [hc, hp]
  simp

theorem connectStep_probe_fail (o : NetOracle) (s : ConnState) (c : Nat)
    (hc : s.client = some c) (hp : o.noopOk s.noops = false) :
    connectStep o s
      = freshConnect o { s with noops := s.noops + 1, client := none } := by
  unfold connectStep
  rw [hc, hp]
  simp

theorem sendEmailStep_eq (o : NetOracle) (s : ConnState) :
    sendEmailStep o s =
      if (connectStep o s).1 then
        if o.sendOk (connectStep o s).2.sends then
          (true, { (connectStep o s).2 with sends := (connectStep o s).2.sends + 1 })
        else
          (false, { (connectStep o s).2 with
                    sends := (connectStep o s).2.sends + 1, client := none })
      else (false, (connectStep o s).2) := rfl

theorem connectStep_fail_client (o : NetOracle) (s : ConnState)
    (h : (connectStep o s).1 = false) : (connectStep o s).2.client = none := by
  cases hcl : s.client with
  | none =>
    rw [connectStep_none o s hcl] at h ⊢
    exact freshConnect_fail_client o s h
  | some c =>
    cases hn : o.noopOk s.noops with
    | true =>
      rw [connectStep_probe_ok o s c hcl hn] at h
      simp at h
    | false =>
      rw [connectStep_probe_fail o s c hcl hn] at h ⊢
      exact freshConnect_fail_client o _ h

theorem connectStep_WF (o : NetOracle) (s : ConnState) (hs : WFConn s) :
    WFConn (connectStep o s).2 := by
  cases hcl : s.client with
  | none =>
    rw [connectStep_none o s hcl]
    exact freshConnect_WF o s
  | some c =>
    cases hn : o.noopOk s.noops with
    | true =>
      rw [connectStep_probe_ok o s c hcl hn]
      intro c2 hc2
      exact hs c2 hc2
    | false =>
      rw [connectStep_probe_fail o s c hcl hn]
      exact freshConnect_WF o _

theorem sendEmailStep_fail_client (o : NetOracle) (s : ConnState)
    (h : (sendEmailStep o s).1 = false) : (sendEmailStep o s).2.client = none := by
  rw [sendEmailStep_eq] at h ⊢
  cases h1 : (connectStep o s).1 with
  | false =>
    simp only [h1, Bool.false_eq_true, if_false] at h ⊢
    exact connectStep_fail_client o s h1
  | true =>
    rw [h1] at h
    rw [if_pos rfl] at h ⊢
    cases h2 : o.sendOk (connectStep o s).2.sends with
    | true => simp [h2] at h
    | false => simp

theorem sendEmailStep_WF (o : NetOracle) (s : ConnState) (hs : WFConn s) :
    WFConn (sendEmailStep o s).2 := by
  rw [sendEmailStep_eq]
  cases h1 : (connectStep o s).1 with
  | false =>
    simp only [h1, Bool.false_eq_true, if_false]
    exact connectStep_WF o s hs
  | true =>
    rw [if_pos rfl]
    cases h2 : o.sendOk (connectStep o s).2.sends with
    | false =>
      simp only [h2, Bool.false_eq_true, if_false]
      intro c hc
      exact absurd hc (by simp)
    | true =>
      simp only [h2, if_pos rfl]
      intro c hc
      exact connectStep_WF o s hs c hc

/-! ## Claim theorems (C5, C6, C8) -/

/-- Two requests enqueued together and processed to completion under an
all-success oracle. -/
def twoSendsScript : List Op :=
  [.enqueue (.multiple ["a@x.com", "b@x.com"]) "S" "B"] ++ List.replicate 6 .work

/-- C5: connection reuse. If a client handle exists when `_connect` runs and
the `noop` probe succeeds, `_connect` reports success, keeps the very same
handle, and opens no new connection; consequently, in a run where two
requests are sent back to back with every network operation succeeding, the
whole run performs exactly one connection-open while both sends complete. -/
theorem claim5_connection_reuse (o : NetOracle) (s : ConnState) (c : Nat)
    (hc : s.client = some c) (hp : o.noopOk s.noops = true) :
    ((connectStep o s).1 = true ∧
     (connectStep o s).2.client = some c ∧
     (connectStep o s).2.opens = s.opens) ∧
    ((run allOk twoSendsScript).conn.opens = 1 ∧
     (run allOk twoSendsScript).trace
       = [.attemptStart 0, .done 0, .attemptStart 1, .done 1]) := by
  refine ⟨?_, rfl, rfl⟩
  unfold connectStep
  rw [hc, hp]
  simp [hc]

/-- A connection state with a live handle, as left behind by one successful
send from the initial state. -/
def reuseState : ConnState :=
  { client := some 0, noops := 0, opens := 1, logins := 1, sends := 1 }

/-- Witness for C5 at a concrete state with a live handle and a succeeding
probe. -/
theorem claim5_witness :
    (connectStep allOk reuseState).1 = true ∧
    (connectStep allOk reuseState).2.client = some 0 ∧
    (connectStep allOk reuseState).2.opens = reuseState.opens :=
  (claim5_connection_reuse allOk reuseState 0 rfl rfl).1

/-- C6: on a transmission failure (connection acquired, `send_message`
fails), `_send_email` reports failure and discards the handle
(`self._client = None`); on transmission success it reports success and keeps
the handle acquisition produced. With the handle absent, the next acquisition
performs a fresh connect (one more connection-open) and sends no keepalive
probe — it does not reuse the failed handle. -/
theorem claim6_reconnect_on_failure (o : NetOracle) (s : ConnState) :
    ((connectStep o s).1 = true → o.sendOk (connectStep o s).2.sends = false →
      (sendEmailStep o s).1 = false ∧ (sendEmailStep o s).2.client = none) ∧
    ((connectStep o s).1 = true → o.sendOk (connectStep o s).2.sends = true →
      (sendEmailStep o s).1 = true ∧
      (sendEmailStep o s).2.client = (connectStep o s).2.client) ∧
    (s.client = none →
      (connectStep o s).2.opens = s.opens + 1 ∧
      (connectStep o s).2.noops = s.noops) := by
  refine ⟨fun h1 h2 => ?_, fun h1 h2 => ?_, fun hn => ?_⟩
  · rw [sendEmailStep_eq, h1, h2]
    simp
  · rw [sendEmailStep_eq, h1, h2]
    simp
  · rw [connectStep_none o s hn]
    exact ⟨freshConnect_opens o s, freshConnect_noops o s⟩

/-- Witness for C6: from the initial state under `sendAlwaysFails`, the
connection is acquired, the transmission fails, and the handle is
discarded. -/
theorem claim6_witness :
    (sendEmailStep sendAlwaysFails initConn).1 = false ∧
    (sendEmailStep sendAlwaysFails initConn).2.client = none :=
  (claim6_reconnect_on_failure sendAlwaysFails initConn).1 rfl rfl

/-- An oracle whose keepalive probes always fail but whose connections
succeed. -/
def probeFails : NetOracle :=
  { noopOk := fun _ => false, connectOk := fun _ => true
    loginOk := fun _ => true, sendOk := fun _ => true }

/-- C8: connection-state invariant. A failed acquisition (connect or
authenticate step) leaves the handle absent; a failed `_send_email` (probe,
connect, authenticate or transmission failure) leaves the handle absent; both
operations preserve well-formedness of the single optional handle (`WFConn`:
any live handle came from an earlier connection-open, so there is at most one
live connection at a time); and after a failed probe the old handle is never
kept — the resulting handle, if any, is a fresh one. -/
theorem claim8_connection_state_invariant (o : NetOracle) (s : ConnState)
    (c : Nat) :
    ((connectStep o s).1 = false → (connectStep o s).2.client = none) ∧
    ((sendEmailStep o s).1 = false → (sendEmailStep o s).2.client = none) ∧
    (WFConn s → WFConn (connectStep o s).2) ∧
    (WFConn s → WFConn (sendEmailStep o s).2) ∧
    (WFConn s → s.client = some c → o.noopOk s.noops = false →
      (connectStep o s).2.client ≠ some c) := by
  refine ⟨connectStep_fail_client o s, sendEmailStep_fail_client o s,
    connectStep_WF o s, sendEmailStep_WF o s, fun hw hc hp => ?_⟩
  have hlt : c < s.opens := hw c hc
  rw [connectStep_probe_fail o s c hc hp]
  rcases freshConnect_client o { s with noops := s.noops + 1, client := none }
    with h | h <;> rw [h] <;> simp
  omega

/-- Witness for C8 at a concrete state: a failing probe on a live handle
never leaves that old handle in place. -/
theorem claim8_witness :
    (connectStep probeFails reuseState).2.client ≠ some 0 :=
  (claim8_connection_state_invariant probeFails reuseState 0).2.2.2.2
    (fun c hc => by simp [reuseState] at hc ⊢; omega) rfl rfl

/-! ## FIFO ordering (C9): an invariant of the step system

Sequence numbers are handed out in enqueue order, the queue is popped at the
front, and the single worker finishes one item before starting the next; the
invariant below says the queue holds strictly increasing sequence numbers,
all trace events carry numbers below everything still queued (or equal to the
item in progress), and the trace's sequence numbers are non-decreasing. -/

/-- The sequence numbers currently in the queue, front to back. -/
def qseqs (s : SysState) : List Nat := s.queue.map Prod.fst

/-- Relation between the worker's control point and the trace/queue: while an
item is in progress, every past event is for it or an earlier item and
everything queued is later; otherwise every past event is for an item earlier
than everything queued. -/
def phaseBound (ph : WorkerPhase) (tr : List Event) (qs : List Nat)
    (nx : Nat) : Prop :=
  match ph with
  | .processing i _ _ =>
      (∀ e ∈ tr, e.seq ≤ i) ∧ (∀ j ∈ qs, i < j) ∧ i < nx
  | _ => ∀ e ∈ tr, ∀ j ∈ qs, e.seq < j

/-- The reachable-state invariant. -/
def Inv (s : SysState) : Prop :=
  (qseqs s).Pairwise (· < ·) ∧
  (∀ j ∈ qseqs s, j < s.nextSeq) ∧
  (∀ e ∈ s.trace, e.seq < s.nextSeq) ∧
  (s.trace.map Event.seq).Pairwise (· ≤ ·) ∧
  phaseBound s.phase s.trace (qseqs s) s.nextSeq

theorem Inv_initState : Inv initState := by
  refine ⟨?_, ?_, ?_, ?_, ?_⟩ <;> simp [initState, qseqs, phaseBound]

theorem qseqs_enqueueOp (s : SysState) (recips : Recipients)
    (subject body : String) :
    qseqs (enqueueOp s recips subject body)
      = qseqs s
        ++ (tagFrom s.nextSeq (requestsOf recips subject body)).map Prod.fst := by
  simp [qseqs, enqueueOp]

theorem Inv_enqueueOp (s : SysState) (recips : Recipients)
    (subject body : String) (h : Inv s) :
    Inv (enqueueOp s recips subject body) := by
  obtain ⟨hq, hqn, htn, ht, hp⟩ := h
  have hq2 := qseqs_enqueueOp s recips subject body
  have hnew_lb : ∀ j ∈ (tagFrom s.nextSeq (requestsOf recips subject body)).map
      Prod.fst, s.nextSeq ≤ j := fun j hj => (mem_tagFrom_fst hj).1
  have hnew_ub : ∀ j ∈ (tagFrom s.nextSeq (requestsOf recips subject body)).map
      Prod.fst, j < s.nextSeq + (requestsOf recips subject body).length :=
    fun j hj => (mem_tagFrom_fst hj).2
  have hnx : (enqueueOp s recips subject body).nextSeq
      = s.nextSeq + (requestsOf recips subject body).length := rfl
  refine ⟨?_, ?_, ?_, ?_, ?_⟩
  · rw [hq2]
    exact List.pairwise_append.2
      ⟨hq, tagFrom_fst_pairwise _ _,
        fun a ha b hb => lt_of_lt_of_le (hqn a ha) (hnew_lb b hb)⟩
  · intro j hj
    rw [hq2] at hj
    rw [hnx]
    rcases List.mem_append.1 hj with hj | hj
    · exact lt_of_lt_of_le (hqn j hj) (Nat.le_add_right _ _)
    · exact hnew_ub j hj
  · intro e he
    rw [hnx]
    exact lt_of_lt_of_le (htn e he) (Nat.le_add_right _ _)
  · exact ht
  · rw [hq2, hnx]
    show phaseBound s.phase s.trace _ _
    cases hph : s.phase with
    | processing i item r =>
      rw [hph] at hp
      obtain ⟨h1, h2, h3⟩ := hp
      refine ⟨h1, ?_, lt_of_lt_of_le h3 (Nat.le_add_right _ _)⟩
      intro j hj
      rcases List.mem_append.1 hj with hj | hj
      · exact h2 j hj
      · exact lt_of_lt_of_le h3 (hnew_lb j hj)
    | loopTop =>
      rw [hph] at hp
      intro e he j hj
      rcases List.mem_append.1 hj with hj | hj
      · exact hp e he j hj
      · exact lt_of_lt_of_le (htn e he) (hnew_lb j hj)
    | waitingGet =>
      rw [hph] at hp
      intro e he j hj
      rcases List.mem_append.1 hj with hj | hj
      · exact hp e he j hj
      · exact lt_of_lt_of_le (htn e he) (hnew_lb j hj)
    | exited =>
      rw [hph] at hp
      intro e he j hj
      rcases List.mem_append.1 hj with hj | hj
      · exact hp e he j hj
      · exact lt_of_lt_of_le (htn e he) (hnew_lb j hj)

theorem Inv_stopOp (s : SysState) (h : Inv s) : Inv (stopOp s) := h

theorem trace_extend_pairwise {tr : List Event} {i : Nat} (es : List Event)
    (ht : (tr.map Event.seq).Pairwise (· ≤ ·))
    (hti : ∀ e ∈ tr, e.seq ≤ i) (hes : ∀ e ∈ es, e.seq = i) :
    (((tr ++ es).map Event.seq)).Pairwise (· ≤ ·) := by
  rw [List.map_append]
  refine List.pairwise_append.2 ⟨ht, ?_, ?_⟩
  · rw [List.pairwise_map]
    refine List.pairwise_of_forall_mem_list ?_
    intro a ha b hb
    rw [hes a ha, hes b hb]
  · intro a ha b hb
    obtain ⟨e, he, rfl⟩ := List.mem_map.1 ha
    obtain ⟨f, hf, rfl⟩ := List.mem_map.1 hb
    rw [hes f hf]
    exact hti e he

theorem Inv_workerStep (o : NetOracle) (s : SysState) (h : Inv s) :
    Inv (workerStep o s) := by
  obtain ⟨hq, hqn, htn, ht, hp⟩ := h
  cases hph : s.phase with
  | exited =>
    have hstep : workerStep o s = s := by
      unfold workerStep
      rw [hph]
    rw [hstep]
    exact ⟨hq, hqn, htn, ht, hp⟩
  | loopTop =>
    have hstep : workerStep o s
        = if s.running then { s with phase := .waitingGet }
          else { s with phase := .exited } := by
      unfold workerStep
      rw [hph]
    rw [hph] at hp
    rw [hstep]
    cases hr : s.running <;> simp only [hr, Bool.false_eq_true, if_false, if_pos rfl] <;>
      exact ⟨hq, hqn, htn, ht, hp⟩
  | waitingGet =>
    have hstep : workerStep o s
        = match s.queue with
          | [] => s
          | (i, item) :: rest =>
            { s with queue := rest, phase := .processing i item 3 } := by
      unfold workerStep
      rw [hph]
    rw [hph] at hp
    rw [hstep]
    cases hqq : s.queue with
    | nil => exact ⟨hq, hqn, htn, ht, by rw [hph]; exact hp⟩
    | cons hd rest =>
      obtain ⟨i, item⟩ := hd
      have hqs : qseqs s = i :: rest.map Prod.fst := by
        rw [qseqs, hqq]
        rfl
      rw [hqs] at hq hqn hp
      obtain ⟨hilt, hrest⟩ := List.pairwise_cons.1 hq
      refine ⟨hrest, ?_, htn, ht, ?_⟩
      · intro j hj
        exact hqn j (List.mem_cons_of_mem i hj)
      · show phaseBound (.processing i item 3) s.trace (rest.map Prod.fst) s.nextSeq
        refine ⟨?_, hilt, hqn i (List.mem_cons_self i _)⟩
        intro e he
        exact Nat.le_of_lt (hp e he i (List.mem_cons_self i _))
  | processing i item r =>
    have hstep : workerStep o s
        = if r = 0 then
            { s with phase := .loopTop, trace := s.trace ++ [.dropped i] }
          else if (sendEmailStep o s.conn).1 then
            { s with conn := (sendEmailStep o s.conn).2, phase := .loopTop
                     trace := s.trace ++ [.attemptStart i, .done i] }
          else
            { s with conn := (sendEmailStep o s.conn).2
                     phase := .processing i item (r - 1)
                     trace := s.trace ++ [.attemptStart i] } := by
      unfold workerStep
      rw [hph]
    rw [hph] at hp
    obtain ⟨hti, hqi, hin⟩ := hp
    have hother : ∀ es : List Event, (∀ e ∈ es, e.seq = i) →
        ∀ e ∈ s.trace ++ es, ∀ j ∈ qseqs s, e.seq < j := by
      intro es hes e he j hj
      rcases List.mem_append.1 he with he | he
      · exact lt_of_le_of_lt (hti e he) (hqi j hj)
      · rw [hes e he]
        exact hqi j hj
    have hnew : ∀ es : List Event, (∀ e ∈ es, e.seq = i) →
        ∀ e ∈ s.trace ++ es, e.seq < s.nextSeq := by
      intro es hes e he
      rcases List.mem_append.1 he with he | he
      · exact htn e he
      · rw [hes e he]
        exact hin
    rw [hstep]
    by_cases hr : r = 0
    · rw [if_pos hr]
      refine ⟨hq, hqn, ?_, ?_, ?_⟩
      · exact hnew [.dropped i] (by simp [Event.seq])
      · exact trace_extend_pairwise [.dropped i] ht hti (by simp [Event.seq])
      · show phaseBound .loopTop (s.trace ++ [.dropped i]) (qseqs s) s.nextSeq
        exact hother [.dropped i] (by simp [Event.seq])
    · rw [if_neg hr]
      cases hsend : (sendEmailStep o s.conn).1
      · rw [if_neg (by simp [hsend])]
        refine ⟨hq, hqn, ?_, ?_, ?_⟩
        · exact hnew [.attemptStart i] (by simp [Event.seq])
        · exact trace_extend_pairwise [.attemptStart i] ht hti (by simp [Event.seq])
        · show phaseBound (.processing i item (r - 1))
            (s.trace ++ [.attemptStart i]) (qseqs s) s.nextSeq
          refine ⟨?_, hqi, hin⟩
          intro e he
          rcases List.mem_append.1 he with he | he
          · exact hti e he
          · simp only [List.mem_singleton] at he
            rw [he]
            exact Nat.le_refl i
      · rw [if_pos (by simp [hsend])]
        have hpair : ∀ e ∈ [Event.attemptStart i, Event.done i], e.seq = i := by
          intro e he
          simp only [List.mem_cons, List.not_mem_nil, or_false] at he
          rcases he with rfl | rfl <;> rfl
        refine ⟨hq, hqn, hnew _ hpair, trace_extend_pairwise _ ht hti hpair, ?_⟩
        show phaseBound .loopTop (s.trace ++ [.attemptStart i, .done i])
          (qseqs s) s.nextSeq
        exact hother _ hpair

theorem Inv_applyOp (o : NetOracle) (s : SysState) (op : Op) (h : Inv s) :
    Inv (applyOp o s op) := by
  cases op with
  | enqueue recips subject body => exact Inv_enqueueOp s recips subject body h
  | stop => exact Inv_stopOp s h
  | work => exact Inv_workerStep o s h

theorem Inv_run (o : NetOracle) (ops : List Op) : Inv (run o ops) := by
  suffices hgen : ∀ (l : List Op) (s : SysState), Inv s → Inv (l.foldl (applyOp o) s) by
    exact hgen ops initState Inv_initState
  intro l
  induction l with
  | nil => exact fun s hs => hs
  | cons op l ih => exact fun s hs => ih _ (Inv_applyOp o s op hs)

/-- In every run, the sequence numbers of the trace are non-decreasing: the
single worker fully finishes one item before touching a later one. -/
theorem run_trace_monotone (o : NetOracle) (ops : List Op) :
    ((run o ops).trace.map Event.seq).Pairwise (· ≤ ·) :=
  (Inv_run o ops).2.2.2.1

/-- C9: FIFO processing. In any interleaving of `enqueue`, `stop` and worker
steps, if one `_send_email` attempt (for the request with sequence number
`a`) appears in the trace strictly before another (for sequence number `b`),
then `a ≤ b`: the single worker begins the attempts of an
earlier-enqueued request before those of a later-enqueued one, and never
interleaves them. -/
theorem claim9_fifo_order (o : NetOracle) (ops : List Op) (i j a b : Nat)
    (hij : i < j)
    (ha : (run o ops).trace[i]? = some (.attemptStart a))
    (hb : (run o ops).trace[j]? = some (.attemptStart b)) :
    a ≤ b := by
  have hpw := run_trace_monotone o ops
  rw [List.getElem?_eq_some] at ha hb
  obtain ⟨hi, hai⟩ := ha
  obtain ⟨hj, hbj⟩ := hb
  have hlen : ((run o ops).trace.map Event.seq).length = (run o ops).trace.length :=
    List.length_map _ _
  have hmono := List.pairwise_iff_get.1 hpw
    ⟨i, by rw [hlen]; exact hi⟩ ⟨j, by rw [hlen]; exact hj⟩ hij
  simpa [List.get_eq_getElem, hai, hbj, Event.seq] using hmono

/-- Witness for C9 on a concrete run with two requests. -/
theorem claim9_witness :
    (run allOk twoSendsScript).trace[0]? = some (.attemptStart 0) ∧
    (run allOk twoSendsScript).trace[2]? = some (.attemptStart 1) ∧
    (0 : Nat) ≤ 1 :=
  ⟨rfl, rfl, claim9_fifo_order allOk twoSendsScript 0 2 0 1 (by decide) rfl rfl⟩

end AsyncEmailSender
